import Mathlib

/-!
Verification development for the tm-parser front end.

The development shallowly embeds, in Lean, the parts of the code base that
the verified properties talk about:

* `src/lexer/utils.py` — the rewindable token stream (`RewindableStream`);
* `src/tm/parser/base_rules.py` — the rule combinator engine
  (`BottomRule`, `C`, `AndRule`, `OrRule`, `SkipBehavior`);
* `src/tm/lexer/tokenizer.py` — the single-step tokenizer built on one
  combined alternation pattern;
* `src/lexer/lexer.py` — the macro table operations, the end-of-input
  handling of the lexer state machine and the macro-argument substitution
  step;
* `src/tm/lexer/tokens.py` — the multiline-string de-indentation
  (a faithful port of CPython textwrap.dedent as used by
  `MultilineString.process`).

Python strings are embedded as `List Char`, Python lists as Lean lists.
Where a Python list is used as a stack (append/pop at the end), the Lean
list stores the most recently appended element first, so Python
`l.append(x)` is `x :: l` and `l.pop()` removes the head.
-/

/-- Python strings are modelled as lists of characters. -/
abbrev Str := List Char

/-! ## Rewindable token stream (src/lexer/utils.py, RewindableStream)

Tokens flowing through the stream during a parse are the lexer's tokens,
plus the end-of-input sentinel: the composed lexer pipeline returns `None`
forever once the source is exhausted, and `RewindableStream` treats that
`None` like any other item (it is appended to `given`/`peeked` as usual).
We model the sentinel as a token of kind `eos`. -/

/-- Token kinds that reach the rule engine (Default-mode tokens of
src/lexer/lexer.py plus the end-of-input sentinel `eos` standing for
Python `None`). -/
inductive TokKind where
  | name
  | string
  | posInt
  | whiteSpace
  | endOfLine
  | character
  | eos
deriving DecidableEq, Repr

/-- A token as seen by the rule engine: its kind and its processed value
(the value of the sentinel is empty). -/
structure Tok where
  kind : TokKind
  value : Str
deriving DecidableEq, Repr

/-- The end-of-input sentinel, standing for Python `None` in the token
stream. -/
def eosTok : Tok := ⟨.eos, []⟩

/-- State of `RewindableStream`: `given` is the history of committed
tokens (most recent first), `peeked` the replay buffer (next to be
returned first), `producer` the remaining tokens of the underlying
stream.  Once `producer` is exhausted the underlying lexer keeps
returning the sentinel, which is what `nextT`/`peekT` do below. -/
structure RStream where
  given : List Tok
  peeked : List Tok
  producer : List Tok
deriving DecidableEq, Repr

/-- RewindableStream.__next__: pop the replay buffer if non-empty, else
pull from the producer; the returned token is appended to `given`. -/
def nextT (s : RStream) : Tok × RStream :=
  match s.peeked with
  | o :: rest => (o, { s with peeked := rest, given := o :: s.given })
  | [] =>
    match s.producer with
    | o :: rest => (o, { s with producer := rest, given := o :: s.given })
    | [] => (eosTok, { s with given := eosTok :: s.given })

/-- RewindableStream.peek: look at the next token without committing it;
if the replay buffer is empty one token is pulled from the producer into
the replay buffer. -/
def peekT (s : RStream) : Tok × RStream :=
  match s.peeked with
  | o :: _ => (o, s)
  | [] =>
    match s.producer with
    | o :: rest => (o, { s with peeked := [o], producer := rest })
    | [] => (eosTok, { s with peeked := [eosTok] })

/-- RewindableStream.rewind(n): move the last n committed tokens from the
history back into the replay buffer, in reverse order.  (The Python code
asserts `len(given) >= n`; every use below respects that bound.) -/
def rewind (n : Nat) (s : RStream) : RStream :=
  { s with given := s.given.drop n,
           peeked := (s.given.take n).reverse ++ s.peeked }

/-- n consecutive `next()` calls: the returned tokens in call order,
and the final stream state. -/
def nextN : Nat → RStream → List Tok × RStream
  | 0, s => ([], s)
  | k + 1, s =>
    let (t, s1) := nextT s
    let (ts, s2) := nextN k s1
    (t :: ts, s2)

/-- The observable future of a stream: the token the i-th `next()` from
here would return (the sentinel once everything is exhausted). -/
def obs (s : RStream) : Nat → Tok :=
  fun i => (s.peeked ++ s.producer).getD i eosTok

theorem nextN_length (m : Nat) (s : RStream) : (nextN m s).1.length = m := by
  induction m generalizing s with
  | zero => rfl
  | succ k ih => simp [nextN, ih]

theorem nextT_given (s : RStream) :
    (nextT s).2.given = (nextT s).1 :: s.given := by
  unfold nextT
  cases s.peeked with
  | cons o rest => rfl
  | nil => cases s.producer with
    | cons o rest => rfl
    | nil => rfl

theorem nextN_given (m : Nat) (s : RStream) :
    (nextN m s).2.given = (nextN m s).1.reverse ++ s.given := by
  induction m generalizing s with
  | zero => rfl
  | succ k ih =>
    simp only [nextN]
    rw [ih (nextT s).2, nextT_given]
    simp

theorem nextN_peeked (n : Nat) (s : RStream) (h : n ≤ s.peeked.length) :
    (nextN n s).1 = s.peeked.take n := by
  induction n generalizing s with
  | zero => rfl
  | succ k ih =>
    cases hp : s.peeked with
    | nil => simp [hp] at h
    | cons o rest =>
      have hn : nextT s = (o, { s with peeked := rest, given := o :: s.given }) := by
        unfold nextT; rw [hp]
      simp only [nextN, hn]
      rw [ih _ (by simp [hp] at h; simpa using h)]
      simp [hp]

/-- Peek-then-next returns the same token and reaches the same state as a
direct next. -/
theorem peekT_nextT (s : RStream) :
    (peekT s).1 = (nextT s).1 ∧ nextT (peekT s).2 = nextT s := by
  unfold peekT nextT
  cases hp : s.peeked with
  | cons o rest => simp [hp]
  | nil =>
    cases hq : s.producer with
    | cons o rest => simp [hp, hq]
    | nil => simp [hp, hq]

theorem take_reverse_reverse_eq_drop {α : Type} (l : List α) (n : Nat) :
    (l.reverse.take n).reverse = l.drop (l.length - n) := by
  have h := List.reverse_take (l := l.reverse) (n := n)
  simpa using h

/-- C2 — Rewind correctness of RewindableStream: peeking is consistent
with the next `next()` call (same token, same resulting state), and after
any m `next()` calls followed by `rewind n` with n ≤ m, the next n
`next()` calls return exactly the last n previously returned tokens, in
the same order. -/
theorem rewindable_stream_replay :
    (∀ s : RStream, (peekT s).1 = (nextT s).1 ∧ nextT (peekT s).2 = nextT s) ∧
    (∀ (s : RStream) (m n : Nat), n ≤ m →
      (nextN n (rewind n (nextN m s).2)).1 = (nextN m s).1.drop (m - n)) := by
  refine ⟨peekT_nextT, fun s m n hnm => ?_⟩
  set out := (nextN m s).1 with hout
  set s' := (nextN m s).2 with hs'
  have hlen : out.length = m := nextN_length m s
  have hgiven : s'.given = out.reverse ++ s.given := nextN_given m s
  have htake : s'.given.take n = out.reverse.take n := by
    rw [hgiven]
    exact List.take_append_of_le_length (by simp [hlen]; omega)
  have hlen2 : (s'.given.take n).length = n := by
    rw [htake]
    simp [hlen]; omega
  have hpeek : (rewind n s').peeked = (s'.given.take n).reverse ++ s'.peeked := rfl
  have hr : (nextN n (rewind n s')).1 = (rewind n s').peeked.take n := by
    apply nextN_peeked
    rw [hpeek]
    simp [hlen2]
  rw [hr, hpeek, List.take_append_of_le_length (by simp [hlen2]),
      List.take_of_length_le (by simp [hlen2])]
  rw [htake, take_reverse_reverse_eq_drop, hlen]

/-- Witness for C2 at a concrete stream: three tokens consumed, two
rewound, the replay returns the last two tokens. -/
theorem rewindable_stream_replay_witness :
    (2 ≤ 3) ∧
    (nextN 2 (rewind 2 (nextN 3 ⟨[], [], [⟨.name, ['a']⟩, ⟨.name, ['b']⟩, ⟨.name, ['c']⟩]⟩).2)).1 =
      (nextN 3 (⟨[], [], [⟨.name, ['a']⟩, ⟨.name, ['b']⟩, ⟨.name, ['c']⟩]⟩ : RStream)).1.drop (3 - 2) :=
  ⟨by decide,
   rewindable_stream_replay.2 ⟨[], [], [⟨.name, ['a']⟩, ⟨.name, ['b']⟩, ⟨.name, ['c']⟩]⟩ 3 2 (by decide)⟩

/-! ## Rule combinator engine (src/tm/parser/base_rules.py)

Rules are embedded as an inductive type: `bottom` covers the concrete
BottomRule subclasses E, V and N (their `condition` method becomes a
boolean predicate on the peeked token), `chars` is the C rule, `and` is
AndRule (carrying its `skip_behavior` class attribute) and `or` is
OrRule.  The `x` ("context") parameter threaded through `match` is
omitted: none of the base rules' `process` methods reads or writes it.

Every loop of the Python code (the whitespace-skip loop, the repeatable
loop, the recursion through sub-rules) is given a fuel parameter; `none`
means the fuel ran out.  All theorems below are conditional on the code
terminating, i.e. on the result being `some`. -/

/-- Values produced by rule `process` methods: a token value or a literal
character run (`str`), Python `None` (`none`), or the tuple collected by
a sequence (`tup`). -/
inductive PValue where
  | str (s : Str)
  | none
  | tup (l : List PValue)

mutual

def PValue.decEq : (a b : PValue) → Decidable (a = b)
  | .str a, .str b =>
    if h : a = b then isTrue (h ▸ rfl)
    else isFalse (fun hh => h (by cases hh; rfl))
  | .none, .none => isTrue rfl
  | .tup a, .tup b =>
    match PValue.decEqList a b with
    | isTrue h => isTrue (h ▸ rfl)
    | isFalse h => isFalse (fun hh => h (by cases hh; rfl))
  | .str _, .none => isFalse (fun h => PValue.noConfusion h)
  | .str _, .tup _ => isFalse (fun h => PValue.noConfusion h)
  | .none, .str _ => isFalse (fun h => PValue.noConfusion h)
  | .none, .tup _ => isFalse (fun h => PValue.noConfusion h)
  | .tup _, .str _ => isFalse (fun h => PValue.noConfusion h)
  | .tup _, .none => isFalse (fun h => PValue.noConfusion h)

def PValue.decEqList : (a b : List PValue) → Decidable (a = b)
  | [], [] => isTrue rfl
  | [], _ :: _ => isFalse (fun h => List.noConfusion h)
  | _ :: _, [] => isFalse (fun h => List.noConfusion h)
  | x :: xs, y :: ys =>
    match PValue.decEq x y, PValue.decEqList xs ys with
    | isTrue h1, isTrue h2 => isTrue (by rw [h1, h2])
    | isFalse h1, _ => isFalse (fun hh => h1 (by cases hh; rfl))
    | isTrue _, isFalse h2 => isFalse (fun hh => h2 (by cases hh; rfl))

end

instance : DecidableEq PValue := PValue.decEq

/-- SkipBehavior flags (class SkipBehavior(Flag)): FIRST, OPTIONAL_FIRST,
MIDDLE, OPTIONAL_MIDDLE. -/
structure SkipBehavior where
  first : Bool
  optionalFirst : Bool
  middle : Bool
  optionalMiddle : Bool
deriving DecidableEq, Repr

/-- SkipBehavior.NORMAL = OPTIONAL_FIRST | MIDDLE. -/
def SkipBehavior.normal : SkipBehavior := ⟨false, true, true, false⟩

/-- SkipBehavior.OPTIONAL = OPTIONAL_FIRST | OPTIONAL_MIDDLE. -/
def SkipBehavior.optionalSkip : SkipBehavior := ⟨false, true, false, true⟩

/-- SkipBehavior.NO_SKIP = NONE. -/
def SkipBehavior.noSkip : SkipBehavior := ⟨false, false, false, false⟩

/-- SkipBehavior.validate(first, count). -/
def SkipBehavior.validate (sb : SkipBehavior) (first : Bool) (count : Nat) : Bool :=
  let opt := if first then sb.optionalFirst else sb.optionalMiddle
  let p := if first then sb.first else sb.middle
  opt || (count == 0 && !p) || (decide (count > 0) && p)

/-- The rule algebra of base_rules.py.  Each constructor carries the
`optional`/`repeatable` flags of Rule.__init__. -/
inductive TRule where
  | bottom (cond : Tok → Bool) (opt rep : Bool)
  | chars (cs : List Char) (opt rep : Bool)
  | and (rules : List TRule) (sb : SkipBehavior) (opt rep : Bool)
  | or (rules : List TRule) (opt rep : Bool)

instance : Inhabited TRule := ⟨.bottom (fun _ => false) false false⟩

/-- Rule.is_optional. -/
def TRule.isOpt : TRule → Bool
  | .bottom _ o _ => o
  | .chars _ o _ => o
  | .and _ _ o _ => o
  | .or _ o _ => o

/-- Rule.is_repeatable. -/
def TRule.isRep : TRule → Bool
  | .bottom _ _ r => r
  | .chars _ _ r => r
  | .and _ _ _ r => r
  | .or _ _ r => r

/-- AndRule.whitespace_tokens = (tokens.WhiteSpace, tokens.EndOfLine);
the sentinel (Python None) is not an instance of either. -/
def isWS (t : Tok) : Bool :=
  t.kind == .whiteSpace || t.kind == .endOfLine

/-- BottomRule.process: the matched token's value (None for the
end-of-input sentinel, mirroring `token.value if token else None`). -/
def bottomProcess (t : Tok) : PValue :=
  if t.kind == .eos then .none else .str t.value

/-- AndRule.process: `args or None`. -/
def andProcess (values : List PValue) : PValue :=
  match values with
  | [] => .none
  | vs => .tup vs

/-- The result of Rule.match: (matched, processed value, tokens consumed),
together with the stream state after the call. -/
abbrev MatchRes := Bool × PValue × Nat × RStream

/-- The loop of C.match: consume one Character token per expected char;
on a mismatch at index i, rewind the i+1 consumed tokens and fail.  On
success the value is the full character run and the count its length. -/
def charsLoop (full : List Char) : List Char → Nat → RStream → MatchRes
  | [], _, s => (true, .str full, full.length, s)
  | c :: rest, i, s =>
    let (t, s1) := nextT s
    if t.kind == .character && t.value == [c] then
      charsLoop full rest (i + 1) s1
    else
      (false, .none, 0, rewind (i + 1) s1)

mutual

/-- Rule.match, by rule shape.  `bottom` is BottomRule.match (peek, test
the condition, consume on success); `chars` is C.match; `and` runs
AndRule.match via `andLoop`; `or` runs OrRule.match via `orLoop`. -/
def matchR : Nat → TRule → RStream → Option MatchRes
  | 0, _, _ => Option.none
  | _ + 1, .bottom cond _ _, s =>
    let (t, s1) := peekT s
    if cond t then
      let (t2, s2) := nextT s1
      some (true, bottomProcess t2, 1, s2)
    else
      some (false, .none, 0, s1)
  | _ + 1, .chars cs _ _, s => some (charsLoop cs cs 0 s)
  | f + 1, .and rules sb _ _, s => andLoop f sb rules true s 0 []
  | f + 1, .or rules _ _, s => orLoop f rules s

/-- The body of AndRule.match: iterate over the sub-rules, accumulating
the consumed-token count and the matched values; on a non-optional
failure rewind everything consumed so far and report no match; a
successful repeatable sub-rule is retried via `repeatLoop`. -/
def andLoop : Nat → SkipBehavior → List TRule → Bool → RStream → Nat → List PValue →
    Option MatchRes
  | 0, _, _, _, _, _, _ => Option.none
  | _ + 1, _, [], _, s, count, values => some (true, andProcess values, count, s)
  | f + 1, sb, rule :: rest, isFirst, s, count, values =>
    match matchOnce f sb rule isFirst s with
    | Option.none => Option.none
    | some (b, v, ic, s1) =>
      if !b && !rule.isOpt then
        some (false, .none, 0, rewind (count + ic) s1)
      else if b && rule.isRep then
        match repeatLoop f sb rule s1 with
        | Option.none => Option.none
        | some (rc, rvs, s2) =>
          andLoop f sb rest false s2 (count + ic + rc) ((values ++ v.toList) ++ rvs)
      else
        andLoop f sb rest false s1 (count + ic) (values ++ v.toList)

/-- The `while is_match and rule.is_repeatable` loop of AndRule.match:
keep re-matching the sub-rule until it fails, accumulating counts and
values (a failed iteration contributes count 0 and no value). -/
def repeatLoop : Nat → SkipBehavior → TRule → RStream → Option (Nat × List PValue × RStream)
  | 0, _, _, _ => Option.none
  | f + 1, sb, rule, s =>
    match matchOnce f sb rule false s with
    | Option.none => Option.none
    | some (b, v, ic, s1) =>
      if b then
        match repeatLoop f sb rule s1 with
        | Option.none => Option.none
        | some (rc, rvs, s2) => some (ic + rc, v.toList ++ rvs, s2)
      else
        some (ic, [], s1)

/-- AndRule.match_once: skip whitespace tokens, validate the skip count
against the skip behavior (rewinding the skipped tokens on a violation),
then match the sub-rule, rewinding the skipped tokens if it fails.  The
value matched on success is returned (instead of being appended to the
caller's accumulator). -/
def matchOnce : Nat → SkipBehavior → TRule → Bool → RStream →
    Option (Bool × Option PValue × Nat × RStream)
  | 0, _, _, _, _ => Option.none
  | f + 1, sb, rule, isFirst, s =>
    match skipLoop f s with
    | Option.none => Option.none
    | some (sc, s1) =>
      if !(sb.validate isFirst sc) then
        some (false, Option.none, 0, rewind sc s1)
      else
        match matchR f rule s1 with
        | Option.none => Option.none
        | some (b, v, n, s2) =>
          if !b then
            some (false, Option.none, 0, rewind sc s2)
          else
            some (true, some v, sc + n, s2)

/-- The `while isinstance(token_s.peek(), whitespace_tokens)` loop of
AndRule.match_once: count and consume leading whitespace tokens. -/
def skipLoop : Nat → RStream → Option (Nat × RStream)
  | 0, _ => Option.none
  | f + 1, s =>
    let (t, s1) := peekT s
    if isWS t then
      let s2 := (nextT s1).2
      match skipLoop f s2 with
      | Option.none => Option.none
      | some (c, s3) => some (c + 1, s3)
    else
      some (0, s1)

/-- The loop of OrRule.match: try the alternatives in declaration order
and return the first match (OrRule.process returns the value unchanged);
if none matches, report no match with zero consumption. -/
def orLoop : Nat → List TRule → RStream → Option MatchRes
  | 0, _, _ => Option.none
  | _ + 1, [], s => some (false, .none, 0, s)
  | f + 1, rule :: rest, s =>
    match matchR f rule s with
    | Option.none => Option.none
    | some (b, v, n, s1) =>
      if b then some (true, v, n, s1)
      else orLoop f rest s1

end

/-! ### Consumption soundness

`Consumes s n s'` says that state `s'` is reachable from `s` by net
consumption of exactly `n` tokens: the history grew by an `n`-token block
`w` (most recent first) and the observable future of `s` is that block
(in consumption order) followed by the observable future of `s'`. -/

/-- Prepend a finite token block to an observable future. -/
def appObs : List Tok → (Nat → Tok) → Nat → Tok
  | [], f => f
  | t :: w, f => fun i =>
    match i with
    | 0 => t
    | i + 1 => appObs w f i

theorem appObs_append (a b : List Tok) (f : Nat → Tok) :
    appObs (a ++ b) f = appObs a (appObs b f) := by
  induction a with
  | nil => rfl
  | cons t rest ih =>
    funext i
    cases i with
    | zero => rfl
    | succ j => simp [appObs, ih]

theorem getD_append_appObs (a l : List Tok) (i : Nat) :
    (a ++ l).getD i eosTok = appObs a (fun j => l.getD j eosTok) i := by
  induction a generalizing i with
  | nil => rfl
  | cons t rest ih =>
    cases i with
    | zero => rfl
    | succ j =>
      simp only [List.cons_append, List.getD_cons_succ]
      exact ih j

def Consumes (s : RStream) (n : Nat) (s' : RStream) : Prop :=
  ∃ w : List Tok, s'.given = w ++ s.given ∧ w.length = n ∧
    obs s = appObs w.reverse (obs s')

theorem Consumes.refl (s : RStream) : Consumes s 0 s :=
  ⟨[], by simp, rfl, rfl⟩

theorem Consumes.trans {s1 s2 s3 : RStream} {n1 n2 : Nat}
    (h1 : Consumes s1 n1 s2) (h2 : Consumes s2 n2 s3) :
    Consumes s1 (n1 + n2) s3 := by
  obtain ⟨w1, hg1, hl1, ho1⟩ := h1
  obtain ⟨w2, hg2, hl2, ho2⟩ := h2
  refine ⟨w2 ++ w1, by simp [hg2, hg1], by simp [hl1, hl2]; omega, ?_⟩
  rw [ho1, ho2, List.reverse_append, appObs_append]

theorem Consumes.zero_eq {s s' : RStream} (h : Consumes s 0 s') :
    s'.given = s.given ∧ obs s' = obs s := by
  obtain ⟨w, hg, hl, ho⟩ := h
  have : w = [] := List.length_eq_zero.mp hl
  subst this
  exact ⟨by simpa using hg, by simpa [appObs] using ho.symm⟩

theorem consumes_peekT (s : RStream) : Consumes s 0 (peekT s).2 := by
  refine ⟨[], ?_, rfl, ?_⟩
  · unfold peekT
    cases hp : s.peeked with
    | cons o rest => rfl
    | nil =>
      cases hq : s.producer with
      | cons o rest => rfl
      | nil => rfl
  · unfold peekT
    cases hp : s.peeked with
    | cons o rest => rfl
    | nil =>
      cases hq : s.producer with
      | cons o rest =>
        funext i
        cases i <;> simp [obs, appObs, hp, hq]
      | nil =>
        funext i
        cases i <;> simp [obs, appObs, hp, hq]

theorem consumes_nextT (s : RStream) : Consumes s 1 (nextT s).2 := by
  refine ⟨[(nextT s).1], ?_, rfl, ?_⟩
  · rw [nextT_given]; rfl
  · unfold nextT
    cases hp : s.peeked with
    | cons o rest =>
      funext i
      cases i <;> simp [obs, appObs, hp]
    | nil =>
      cases hq : s.producer with
      | cons o rest =>
        funext i
        cases i <;> simp [obs, appObs, hp, hq]
      | nil =>
        funext i
        cases i <;> simp [obs, appObs, hp, hq]

theorem consumes_rewind {s s' : RStream} {n : Nat} (h : Consumes s n s')
    (k : Nat) (hk : k ≤ n) : Consumes s (n - k) (rewind k s') := by
  obtain ⟨w, hg, hl, ho⟩ := h
  have hkw : k ≤ w.length := by omega
  refine ⟨w.drop k, ?_, by simp; omega, ?_⟩
  · show s'.given.drop k = w.drop k ++ s.given
    rw [hg, List.drop_append_of_le_length hkw]
  · have hobs : obs (rewind k s') = appObs (w.take k).reverse (obs s') := by
      funext i
      show ((((s'.given.take k).reverse ++ s'.peeked)) ++ s'.producer).getD i eosTok = _
      have htk : s'.given.take k = w.take k := by
        rw [hg, List.take_append_of_le_length hkw]
      rw [htk, List.append_assoc, getD_append_appObs]
      rfl
    rw [hobs, ho]
    have : w = w.take k ++ w.drop k := (List.take_append_drop k w).symm
    conv_lhs => rw [this]
    rw [List.reverse_append, appObs_append]

/-- Soundness of a match result: the reported consumed-token count is the
exact net consumption from the starting stream, and a failed match
reports count 0. -/
def MSound {α : Type} (s : RStream) (r : Bool × α × Nat × RStream) : Prop :=
  Consumes s r.2.2.1 r.2.2.2 ∧ (r.1 = false → r.2.2.1 = 0)

theorem charsLoop_sound (full : List Char) :
    ∀ (cs : List Char) (i : Nat) (s s0 : RStream),
      Consumes s0 i s → i + cs.length = full.length →
      MSound s0 (charsLoop full cs i s) := by
  intro cs
  induction cs with
  | nil =>
    intro i s s0 hc hl
    have hi : i = full.length := by simpa using hl
    subst hi
    exact ⟨hc, fun hfalse => by simp [charsLoop] at hfalse⟩
  | cons c rest ih =>
    intro i s s0 hc hl
    rcases hn : nextT s with ⟨t, s1⟩
    have hc1 : Consumes s0 (i + 1) s1 := by
      have := consumes_nextT s
      rw [hn] at this
      exact hc.trans this
    by_cases hcond : (t.kind == .character && t.value == [c]) = true
    · have : charsLoop full (c :: rest) i s = charsLoop full rest (i + 1) s1 := by
        simp [charsLoop, hn, hcond]
      rw [this]
      exact ih (i + 1) s1 s0 hc1 (by simp at hl ⊢; omega)
    · have : charsLoop full (c :: rest) i s = (false, .none, 0, rewind (i + 1) s1) := by
        simp [charsLoop, hn, hcond]
      rw [this]
      refine ⟨?_, fun _ => rfl⟩
      have := consumes_rewind hc1 (i + 1) (Nat.le_refl _)
      simpa using this

theorem engine_sound : ∀ f : Nat,
    (∀ rule s r, matchR f rule s = some r → MSound s r) ∧
    (∀ sb rules isF s count values s0 r,
        andLoop f sb rules isF s count values = some r →
        Consumes s0 count s → MSound s0 r) ∧
    (∀ sb rule s r, repeatLoop f sb rule s = some r → Consumes s r.1 r.2.2) ∧
    (∀ sb rule isF s r, matchOnce f sb rule isF s = some r → MSound s r) ∧
    (∀ rules s r, orLoop f rules s = some r → MSound s r) ∧
    (∀ s r, skipLoop f s = some r → Consumes s r.1 r.2) := by
  intro f
  induction f with
  | zero =>
    refine ⟨?_, ?_, ?_, ?_, ?_, ?_⟩ <;> intros <;>
      simp_all [matchR, andLoop, repeatLoop, matchOnce, orLoop, skipLoop]
  | succ f ih =>
    obtain ⟨ihM, ihA, ihR, ihO, ihOr, ihS⟩ := ih
    have skipCase : ∀ s r, skipLoop (f + 1) s = some r → Consumes s r.1 r.2 := by
      intro s r h
      rcases hp : peekT s with ⟨t, s1⟩
      have hps : Consumes s 0 s1 := by
        have := consumes_peekT s
        rwa [hp] at this
      by_cases hws : isWS t = true
      · rcases hq : nextT s1 with ⟨t2, s2⟩
        have hns : Consumes s1 1 s2 := by
          have := consumes_nextT s1
          rwa [hq] at this
        simp only [skipLoop, hp, hws, if_pos, hq] at h
        cases hrest : skipLoop f s2 with
        | none => rw [hrest] at h; simp at h
        | some cr =>
          rw [hrest] at h
          simp at h
          obtain ⟨c, s3⟩ := cr
          have hc3 : Consumes s2 c s3 := ihS s2 (c, s3) hrest
          have : Consumes s (0 + 1 + c) s3 := (hps.trans hns).trans hc3
          rw [← h]
          simpa [Nat.add_comm] using this
      · simp only [skipLoop, hp, hws] at h
        simp at h
        rw [← h]
        simpa using hps
    have onceCase : ∀ sb rule isF s r,
        matchOnce (f + 1) sb rule isF s = some r → MSound s r := by
      intro sb rule isF s r h
      simp only [matchOnce] at h
      cases hs : skipLoop f s with
      | none => rw [hs] at h; simp at h
      | some scr =>
        obtain ⟨sc, s1⟩ := scr
        rw [hs] at h
        have hskip : Consumes s sc s1 := ihS s (sc, s1) hs
        by_cases hv : (!(sb.validate isF sc)) = true
        · simp only [hv, if_pos] at h
          simp at h
          rw [← h]
          refine ⟨?_, fun _ => rfl⟩
          have := consumes_rewind hskip sc (Nat.le_refl _)
          simpa using this
        · simp only [hv, if_neg, Bool.not_eq_true] at h
          cases hm : matchR f rule s1 with
          | none => rw [hm] at h; simp at h
          | some mr =>
            obtain ⟨b, v, n, s2⟩ := mr
            rw [hm] at h
            have hM : MSound s1 (b, v, n, s2) := ihM rule s1 _ hm
            by_cases hb : (!b) = true
            · simp only [hb, if_pos] at h
              simp at h
              rw [← h]
              refine ⟨?_, fun _ => rfl⟩
              have hn0 : n = 0 := hM.2 (by simpa using hb)
              have : Consumes s sc s2 := by
                have := hskip.trans hM.1
                rwa [hn0, Nat.add_zero] at this
              have := consumes_rewind this sc (Nat.le_refl _)
              simpa using this
            · simp only [hb, if_neg] at h
              simp at h
              rw [← h]
              exact ⟨hskip.trans hM.1, fun hf => by simp at hf⟩
    have repCase : ∀ sb rule s r,
        repeatLoop (f + 1) sb rule s = some r → Consumes s r.1 r.2.2 := by
      intro sb rule s r h
      simp only [repeatLoop] at h
      cases ho : matchOnce f sb rule false s with
      | none => rw [ho] at h; simp at h
      | some orr =>
        obtain ⟨b, v, ic, s1⟩ := orr
        rw [ho] at h
        have hO : MSound s (b, v, ic, s1) := ihO sb rule false s _ ho
        by_cases hb : b = true
        · simp only [hb, if_pos] at h
          cases hr : repeatLoop f sb rule s1 with
          | none => rw [hr] at h; simp at h
          | some rr =>
            obtain ⟨rc, rvs, s2⟩ := rr
            rw [hr] at h
            simp at h
            rw [← h]
            exact hO.1.trans (ihR sb rule s1 (rc, rvs, s2) hr)
        · simp only [hb, if_neg, Bool.false_eq_true, ite_false] at h
          simp [hb] at h
          rw [← h]
          exact hO.1
    have andCase : ∀ sb rules isF s count values s0 r,
        andLoop (f + 1) sb rules isF s count values = some r →
        Consumes s0 count s → MSound s0 r := by
      intro sb rules isF s count values s0 r h hcount
      cases rules with
      | nil =>
        simp only [andLoop] at h
        simp at h
        rw [← h]
        exact ⟨hcount, fun hf => by simp at hf⟩
      | cons rule rest =>
        simp only [andLoop] at h
        cases ho : matchOnce f sb rule isF s with
        | none => rw [ho] at h; simp at h
        | some orr =>
          obtain ⟨b, v, ic, s1⟩ := orr
          rw [ho] at h
          have hO : MSound s (b, v, ic, s1) := ihO sb rule isF s _ ho
          have hci : Consumes s0 (count + ic) s1 := hcount.trans hO.1
          by_cases hb1 : (!b && !rule.isOpt) = true
          · simp only [hb1, if_pos] at h
            simp at h
            rw [← h]
            refine ⟨?_, fun _ => rfl⟩
            have := consumes_rewind hci (count + ic) (Nat.le_refl _)
            simpa using this
          · simp only [hb1, if_neg, Bool.false_eq_true] at h
            by_cases hb2 : (b && rule.isRep) = true
            · simp only [hb2, if_pos] at h
              cases hr : repeatLoop f sb rule s1 with
              | none => rw [hr] at h; simp at h
              | some rr =>
                obtain ⟨rc, rvs, s2⟩ := rr
                rw [hr] at h
                have hrc : Consumes s1 rc s2 := ihR sb rule s1 (rc, rvs, s2) hr
                exact ihA sb rest false s2 (count + ic + rc) _ s0 r h (hci.trans hrc)
            · simp only [hb2, if_neg, Bool.false_eq_true, ite_false] at h
              exact ihA sb rest false s1 (count + ic) _ s0 r h hci
    have orCase : ∀ rules s r, orLoop (f + 1) rules s = some r → MSound s r := by
      intro rules s r h
      cases rules with
      | nil =>
        simp only [orLoop] at h
        simp at h
        rw [← h]
        exact ⟨Consumes.refl s, fun _ => rfl⟩
      | cons rule rest =>
        simp only [orLoop] at h
        cases hm : matchR f rule s with
        | none => rw [hm] at h; simp at h
        | some mr =>
          obtain ⟨b, v, n, s1⟩ := mr
          rw [hm] at h
          have hM : MSound s (b, v, n, s1) := ihM rule s _ hm
          by_cases hb : b = true
          · simp only [hb, if_pos] at h
            simp at h
            rw [← h]
            exact ⟨hM.1, fun hf => by simp at hf⟩
          · simp only [hb, if_neg, Bool.false_eq_true, ite_false] at h
            have hn0 : n = 0 := hM.2 (by simpa using hb)
            have hM0 : Consumes s 0 s1 := by rw [← hn0]; exact hM.1
            have hrec : MSound s1 r := ihOr rest s1 r h
            refine ⟨?_, hrec.2⟩
            have := hM0.trans hrec.1
            simpa using this
    have matchCase : ∀ rule s r, matchR (f + 1) rule s = some r → MSound s r := by
      intro rule s r h
      cases rule with
      | bottom cond opt rep =>
        rcases hp : peekT s with ⟨t, s1⟩
        have hps : Consumes s 0 s1 := by
          have := consumes_peekT s
          rwa [hp] at this
        by_cases hc : cond t = true
        · rcases hq : nextT s1 with ⟨t2, s2⟩
          have hns : Consumes s1 1 s2 := by
            have := consumes_nextT s1
            rwa [hq] at this
          simp only [matchR, hp, hc, if_pos, hq] at h
          simp at h
          rw [← h]
          exact ⟨by simpa using hps.trans hns, fun hf => by simp at hf⟩
        · simp only [matchR, hp, hc] at h
          simp at h
          rw [← h]
          exact ⟨by simpa using hps, fun _ => rfl⟩
      | chars cs opt rep =>
        simp only [matchR] at h
        simp at h
        rw [← h]
        exact charsLoop_sound cs cs 0 s s (Consumes.refl s) (by simp)
      | and rules sb opt rep =>
        simp only [matchR] at h
        exact ihA sb rules true s 0 [] s r h (Consumes.refl s)
      | or rules opt rep =>
        simp only [matchR] at h
        exact ihOr rules s r h
    exact ⟨matchCase, andCase, repCase, onceCase, orCase, skipCase⟩

theorem peekT_fst (s : RStream) : (peekT s).1 = obs s 0 := by
  unfold peekT
  cases hp : s.peeked with
  | cons o rest => simp [obs, hp]
  | nil =>
    cases hq : s.producer with
    | cons o rest => simp [obs, hp, hq]
    | nil => simp [obs, hp, hq]

/-- C1 — Sequence atomicity: whenever AndRule.match reports no match (for
any sequence rule, any skip behavior, any flags and any rewindable token
stream, under any terminating fuel), the reported consumed-token count is
0 and the stream's consumption position is unchanged: the whole
observable future of the stream (including tokens that had been consumed
by whitespace skipping during the attempt) is exactly what it was before
the attempt, and in particular peek() returns the same token as before. -/
theorem sequence_atomicity (f : Nat) (rules : List TRule) (sb : SkipBehavior)
    (o r : Bool) (s : RStream) (v : PValue) (n : Nat) (s' : RStream)
    (h : matchR f (.and rules sb o r) s = some (false, v, n, s')) :
    n = 0 ∧ (∀ i, obs s' i = obs s i) ∧ (peekT s').1 = (peekT s).1 := by
  have hM := (engine_sound f).1 _ _ _ h
  have hn : n = 0 := hM.2 rfl
  subst hn
  have hz := hM.1.zero_eq
  refine ⟨rfl, fun i => by rw [hz.2], ?_⟩
  rw [peekT_fst, peekT_fst, hz.2]

/-- Witness for C1: a sequence expecting a Name fails on a stream whose
next tokens are whitespace then a Character; the skipped whitespace token
is rewound and the observable stream is unchanged. -/
theorem sequence_atomicity_witness :
    matchR 10 (.and [.bottom (fun t => t.kind == .name) false false]
        .normal false false)
        ⟨[], [], [⟨.whiteSpace, [' ']⟩, ⟨.character, ['a']⟩]⟩ =
      some (false, .none, 0,
        ⟨[], [⟨.whiteSpace, [' ']⟩, ⟨.character, ['a']⟩], []⟩) ∧
    (∀ i, obs ⟨[], [⟨.whiteSpace, [' ']⟩, ⟨.character, ['a']⟩], []⟩ i =
      obs ⟨[], [], [⟨.whiteSpace, [' ']⟩, ⟨.character, ['a']⟩]⟩ i) := by
  have h : matchR 10 (.and [.bottom (fun t => t.kind == .name) false false]
      .normal false false)
      ⟨[], [], [⟨.whiteSpace, [' ']⟩, ⟨.character, ['a']⟩]⟩ =
      some (false, .none, 0,
        ⟨[], [⟨.whiteSpace, [' ']⟩, ⟨.character, ['a']⟩], []⟩) := by decide
  exact ⟨h, (sequence_atomicity 10 _ _ _ _ _ _ _ _ h).2.1⟩

/-- Two stream states with the same observable future. -/
def obsEq (s1 s2 : RStream) : Prop := ∀ i, obs s1 i = obs s2 i

theorem obsEq_refl (s : RStream) : obsEq s s := fun _ => rfl

theorem obsEq_trans {s1 s2 s3 : RStream} (h1 : obsEq s1 s2) (h2 : obsEq s2 s3) :
    obsEq s1 s3 := fun i => (h1 i).trans (h2 i)

theorem orLoop_first : ∀ (f : Nat) (rules : List TRule) (s : RStream)
    (b : Bool) (v : PValue) (n : Nat) (s' : RStream),
    orLoop f rules s = some (b, v, n, s') →
    (b = false → n = 0 ∧ obsEq s' s ∧
      ∀ j, j < rules.length → ∃ fj sj vj s'j, obsEq sj s ∧
        matchR fj (rules.getD j default) sj = some (false, vj, 0, s'j)) ∧
    (b = true → ∃ i, i < rules.length ∧ ∃ fi si, obsEq si s ∧
      matchR fi (rules.getD i default) si = some (true, v, n, s') ∧
      ∀ j, j < i → ∃ fj sj vj s'j, obsEq sj s ∧
        matchR fj (rules.getD j default) sj = some (false, vj, 0, s'j)) := by
  intro f
  induction f with
  | zero => intro rules s b v n s' h; simp [orLoop] at h
  | succ f ih =>
    intro rules s b v n s' h
    cases rules with
    | nil =>
      simp only [orLoop] at h
      simp at h
      obtain ⟨hb, hv, hn, hs⟩ := h
      subst hb; subst hn; subst hs
      refine ⟨fun _ => ⟨rfl, obsEq_refl s, fun j hj => by simp at hj⟩, fun ht => by simp at ht⟩
    | cons rule rest =>
      simp only [orLoop] at h
      cases hm : matchR f rule s with
      | none => rw [hm] at h; simp at h
      | some mr =>
        obtain ⟨b1, v1, n1, s1⟩ := mr
        rw [hm] at h
        by_cases hb1 : b1 = true
        · subst hb1
          simp at h
          obtain ⟨hb, hv, hn, hs⟩ := h
          subst hb; subst hv; subst hn; subst hs
          refine ⟨fun hf => by simp at hf, fun _ => ?_⟩
          exact ⟨0, by simp, f, s, obsEq_refl s, by simpa using hm,
            fun j hj => by omega⟩
        · have hb1' : b1 = false := by simpa using hb1
          subst hb1'
          simp at h
          have hM := (engine_sound f).1 _ _ _ hm
          have hn1 : n1 = 0 := hM.2 rfl
          subst hn1
          have hobs1 : obsEq s1 s := by
            intro i
            rw [(hM.1.zero_eq).2]
          have hrec := ih rest s1 b v n s' h
          constructor
          · intro hb
            obtain ⟨hn, hoe, hall⟩ := hrec.1 hb
            refine ⟨hn, obsEq_trans hoe hobs1, fun j hj => ?_⟩
            cases j with
            | zero => exact ⟨f, s, v1, s1, obsEq_refl s, by simpa using hm⟩
            | succ j =>
              obtain ⟨fj, sj, vj, s'j, hoj, hmj⟩ := hall j (by simpa using hj)
              exact ⟨fj, sj, vj, s'j, obsEq_trans hoj hobs1, by simpa using hmj⟩
          · intro hb
            obtain ⟨i, hi, fi, si, hoi, hmi, hprev⟩ := hrec.2 hb
            refine ⟨i + 1, by simpa using hi, fi, si, obsEq_trans hoi hobs1,
              by simpa using hmi, fun j hj => ?_⟩
            cases j with
            | zero => exact ⟨f, s, v1, s1, obsEq_refl s, by simpa using hm⟩
            | succ j =>
              obtain ⟨fj, sj, vj, s'j, hoj, hmj⟩ := hprev j (by omega)
              exact ⟨fj, sj, vj, s'j, obsEq_trans hoj hobs1, by simpa using hmj⟩

/-- C3 — Choice determinism: OrRule.match tries the alternatives in
declaration order.  If it reports a match, the result (value, count and
final stream) is exactly the result of the first alternative that
matches: there is an index i such that every earlier alternative fails
with zero consumption on an observably identical stream, and alternative
i produces the returned result — later alternatives play no part even if
they would match more tokens.  If it reports no match, every alternative
fails with zero consumption, and the whole choice consumes nothing. -/
theorem choice_first_match (f : Nat) (rules : List TRule) (o r : Bool)
    (s : RStream) (b : Bool) (v : PValue) (n : Nat) (s' : RStream)
    (h : matchR (f + 1) (.or rules o r) s = some (b, v, n, s')) :
    (b = false → n = 0 ∧ obsEq s' s ∧
      ∀ j, j < rules.length → ∃ fj sj vj s'j, obsEq sj s ∧
        matchR fj (rules.getD j default) sj = some (false, vj, 0, s'j)) ∧
    (b = true → ∃ i, i < rules.length ∧ ∃ fi si, obsEq si s ∧
      matchR fi (rules.getD i default) si = some (true, v, n, s') ∧
      ∀ j, j < i → ∃ fj sj vj s'j, obsEq sj s ∧
        matchR fj (rules.getD j default) sj = some (false, vj, 0, s'j)) := by
  have h' : orLoop f rules s = some (b, v, n, s') := by simpa [matchR] using h
  exact orLoop_first f rules s b v n s' h'

/-- Witness for C3: two overlapping alternatives (any single Character,
then the two-character run "ab") on a stream starting with 'a' 'b': the
first alternative wins with a one-token match even though the second
would consume two tokens. -/
theorem choice_first_match_witness :
    matchR 3 (.or [.bottom (fun t => t.kind == .character) false false,
        .chars ['a', 'b'] false false] false false)
        ⟨[], [], [⟨.character, ['a']⟩, ⟨.character, ['b']⟩]⟩ =
      some (true, .str ['a'], 1,
        ⟨[⟨.character, ['a']⟩], [], [⟨.character, ['b']⟩]⟩) ∧
    (∃ i, i < 2 ∧ ∃ fi si,
      obsEq si ⟨[], [], [⟨.character, ['a']⟩, ⟨.character, ['b']⟩]⟩ ∧
      matchR fi ([TRule.bottom (fun t => t.kind == .character) false false,
        TRule.chars ['a', 'b'] false false].getD i default) si =
        some (true, .str ['a'], 1,
          ⟨[⟨.character, ['a']⟩], [], [⟨.character, ['b']⟩]⟩) ∧
      ∀ j, j < i → ∃ fj sj vj s'j,
        obsEq sj ⟨[], [], [⟨.character, ['a']⟩, ⟨.character, ['b']⟩]⟩ ∧
        matchR fj ([TRule.bottom (fun t => t.kind == .character) false false,
          TRule.chars ['a', 'b'] false false].getD j default) sj =
          some (false, vj, 0, s'j)) := by
  have h : matchR 3 (.or [.bottom (fun t => t.kind == .character) false false,
      .chars ['a', 'b'] false false] false false)
      ⟨[], [], [⟨.character, ['a']⟩, ⟨.character, ['b']⟩]⟩ =
      some (true, .str ['a'], 1,
        ⟨[⟨.character, ['a']⟩], [], [⟨.character, ['b']⟩]⟩) := by decide
  refine ⟨h, ?_⟩
  have h2 := (choice_first_match 2 _ _ _ _ _ _ _ _ h).2 rfl
  simpa using h2

/-! ## Tokenizer (src/tm/lexer/tokenizer.py)

`set_possible_tokens` compiles the active token kinds into one combined
alternation pattern whose branches are named groups, one per kind:
`(?P<Name1>pat1)|(?P<Name2>pat2)|...`.  `__next__` matches that pattern
anchored at the current position (`pattern.match(string, position)`),
reads the winning kind's class name off `m.lastgroup` and dispatches
through the `possible_tokens` dict (a name-keyed dict built by
comprehension, so a later kind with the same class name would override
an earlier one).

Each kind's own compiled pattern is embedded abstractly as an anchored
matcher `Str → Nat → Option Nat` returning the length of the match the
pattern engine would pick at that position.  The combined pattern's
backtracking semantics is embedded by `enumMatches`: a top-level
alternation tries its branches left to right, and since nothing follows
the alternation, the first branch that matches at all supplies the
overall match; `m.lastgroup` is that branch's own group name, because an
outer group closes after every group inside it. -/

/-- A token kind as registered with the tokenizer: its class name (the
regex group name and dict key) and its anchored pattern. -/
structure TkKind where
  name : String
  matcher : Str → Nat → Option Nat

instance : Inhabited TkKind := ⟨⟨"", fun _ _ => Option.none⟩⟩

/-- A produced token: the kind's class name and the matched text. -/
structure TkTok where
  name : String
  matched : Str
deriving DecidableEq, Repr

/-- Python dict lookup on an association list (`dictSet` keeps keys
unique, so position in the list is irrelevant). -/
def dictGet {β : Type} : List (String × β) → String → Option β
  | [], _ => Option.none
  | (k', v') :: rest, k => if k' = k then some v' else dictGet rest k

/-- Python dict assignment: overwrite in place if the key exists
(keeping insertion order), else append. -/
def dictSet {β : Type} : List (String × β) → String → β → List (String × β)
  | [], k, v => [(k, v)]
  | (k', v') :: rest, k, v =>
    if k' == k then (k, v) :: rest else (k', v') :: dictSet rest k v

/-- The `possible_tokens` dict: `{t.__name__: t for t in possible_tokens}`. -/
def buildDict (alts : List TkKind) : List (String × TkKind) :=
  alts.foldl (fun d t => dictSet d t.name t) []

/-- All matches of the combined alternation at a position, in
backtracking priority order, as (group name, match length) pairs. -/
def enumMatches : List TkKind → Str → Nat → List (String × Nat)
  | [], _, _ => []
  | k :: rest, s, p =>
    match k.matcher s p with
    | some len => (k.name, len) :: enumMatches rest s p
    | Option.none => enumMatches rest s p

/-- `pattern.match(string, position)` on the combined alternation: the
highest-priority match, reported as (`m.lastgroup`, length of
`m.group()`). -/
def reMatch (alts : List TkKind) (s : Str) (p : Nat) : Option (String × Nat) :=
  (enumMatches alts s p).head?

/-- Tokenizer.__next__ : match the combined pattern at the current
position; on success take the matched text, advance the position by its
length, and build a token of the class `possible_tokens[m.lastgroup]`.
The result pairs the produced (token, column) — the column being the old
position — with the new position; a failed match leaves the position
untouched. -/
def tokStep (alts : List TkKind) (s : Str) (pos : Nat) :
    Option (TkTok × Nat) × Nat :=
  match reMatch alts s pos with
  | Option.none => (Option.none, pos)
  | some (nm, len) =>
    let value := (s.drop pos).take len
    match dictGet (buildDict alts) nm with
    | Option.none => (Option.none, pos)
    | some k => (some (⟨k.name, value⟩, pos), pos + value.length)

/-- Reference procedure from the specification: try each active kind's
pattern, in list order, anchored exactly at the position; the first kind
whose pattern matches produces the token. -/
def refStep : List TkKind → Str → Nat → Option (TkTok × Nat) × Nat
  | [], _, pos => (Option.none, pos)
  | k :: rest, s, pos =>
    match k.matcher s pos with
    | some len =>
      let value := (s.drop pos).take len
      (some (⟨k.name, value⟩, pos), pos + value.length)
    | Option.none => refStep rest s pos

theorem dictGet_dictSet {β : Type} (d : List (String × β)) (k nm : String) (v : β) :
    dictGet (dictSet d k v) nm = if k = nm then some v else dictGet d nm := by
  induction d with
  | nil => simp [dictSet, dictGet]
  | cons p rest ih =>
    obtain ⟨k', v'⟩ := p
    by_cases hk : k' = k
    · subst hk
      simp only [dictSet, beq_iff_eq, if_pos rfl, dictGet]
      by_cases h : k' = nm <;> simp [h]
    · simp only [dictSet, beq_iff_eq, hk, if_neg]
      by_cases h : k' = nm
      · subst h
        have : ¬ k = k' := fun he => hk he.symm
        simp [dictGet, this]
      · simp [dictGet, h, ih]

theorem foldl_dictSet_congr (alts : List TkKind) (nm : String) :
    ∀ d1 d2 : List (String × TkKind), dictGet d1 nm = dictGet d2 nm →
    dictGet (alts.foldl (fun d t => dictSet d t.name t) d1) nm =
      dictGet (alts.foldl (fun d t => dictSet d t.name t) d2) nm := by
  induction alts with
  | nil => intro d1 d2 h; simpa using h
  | cons t rest ih =>
    intro d1 d2 h
    simp only [List.foldl_cons]
    apply ih
    rw [dictGet_dictSet, dictGet_dictSet, h]

theorem buildDict_acc_get (alts : List TkKind) (nm : String)
    (h : ∀ t ∈ alts, t.name ≠ nm) :
    ∀ d, dictGet (alts.foldl (fun d t => dictSet d t.name t) d) nm = dictGet d nm := by
  induction alts with
  | nil => intro d; rfl
  | cons t rest ih =>
    intro d
    simp only [List.foldl_cons]
    rw [ih (fun t ht => h t (by simp [ht]))]
    rw [dictGet_dictSet]
    have : ¬ t.name = nm := h t (by simp)
    simp [this]

theorem buildDict_head_get (k : TkKind) (rest : List TkKind)
    (h : ∀ t ∈ rest, t.name ≠ k.name) :
    dictGet (buildDict (k :: rest)) k.name = some k := by
  show dictGet (rest.foldl (fun d t => dictSet d t.name t) (dictSet [] k.name k)) k.name = some k
  rw [buildDict_acc_get rest k.name h]
  simp [dictSet, dictGet]

theorem buildDict_cons_get_ne (k : TkKind) (rest : List TkKind) (nm : String)
    (h : nm ≠ k.name) :
    dictGet (buildDict (k :: rest)) nm = dictGet (buildDict rest) nm := by
  show dictGet (rest.foldl (fun d t => dictSet d t.name t) (dictSet [] k.name k)) nm = _
  apply foldl_dictSet_congr
  have hne : ¬ k.name = nm := fun he => h he.symm
  simp [dictSet, dictGet, hne]

theorem reMatch_cons (k : TkKind) (rest : List TkKind) (s : Str) (p : Nat) :
    reMatch (k :: rest) s p =
      match k.matcher s p with
      | some len => some (k.name, len)
      | Option.none => reMatch rest s p := by
  cases hm : k.matcher s p <;> simp [reMatch, enumMatches, hm]

theorem reMatch_name_mem (alts : List TkKind) (s : Str) (p : Nat)
    (nm : String) (len : Nat) (h : reMatch alts s p = some (nm, len)) :
    ∃ t ∈ alts, t.name = nm ∧ t.matcher s p = some len := by
  induction alts with
  | nil => simp [reMatch, enumMatches] at h
  | cons k rest ih =>
    rw [reMatch_cons] at h
    cases hm : k.matcher s p with
    | some l0 =>
      rw [hm] at h
      simp at h
      exact ⟨k, by simp, h.1, by rw [hm, h.2]⟩
    | none =>
      rw [hm] at h
      obtain ⟨t, ht, hn, hmt⟩ := ih h
      exact ⟨t, by simp [ht], hn, hmt⟩

theorem getD_mem_of_lt {α : Type} [Inhabited α] (l : List α) (i : Nat)
    (h : i < l.length) : l.getD i default ∈ l := by
  induction l generalizing i with
  | nil => simp at h
  | cons a as ih =>
    cases i with
    | zero => simp
    | succ j =>
      simp only [List.getD_cons_succ]
      exact List.mem_cons_of_mem a (ih j (by simpa using h))

/-- C4 — One step of the combined-alternation tokenizer (match the single
compiled pattern at the position, read the winning kind off the last
matched named group, dispatch through the name-keyed dict) is equivalent
to the reference procedure that tries each active kind's pattern in list
order, anchored exactly at the position, and returns a token of the
first kind whose pattern matches.  In particular no characters are
skipped and an earlier-listed kind beats a later kind that would match a
longer text.  (The kinds' class names are assumed pairwise distinct, as
they are for every mode's active set; duplicate names would make the
name-keyed dict collapse entries.) -/
theorem tokenizer_first_match (alts : List TkKind) (s : Str) (pos : Nat)
    (hnd : (alts.map (·.name)).Nodup) :
    tokStep alts s pos = refStep alts s pos := by
  induction alts with
  | nil => rfl
  | cons k rest ih =>
    have hk_notin : ∀ t ∈ rest, t.name ≠ k.name := by
      intro t ht he
      have := (List.nodup_cons.mp hnd).1
      exact this (by simpa [he] using List.mem_map_of_mem (·.name) ht)
    have hnd' : (rest.map (·.name)).Nodup := (List.nodup_cons.mp hnd).2
    cases hm : k.matcher s pos with
    | some len =>
      have hre : reMatch (k :: rest) s pos = some (k.name, len) := by
        rw [reMatch_cons, hm]
      rw [tokStep, hre]
      simp only
      rw [buildDict_head_get k rest hk_notin]
      simp [refStep, hm]
    | none =>
      have hre : reMatch (k :: rest) s pos = reMatch rest s pos := by
        rw [reMatch_cons, hm]
      have hrs : refStep (k :: rest) s pos = refStep rest s pos := by
        simp [refStep, hm]
      rw [hrs, ← ih hnd']
      cases hr : reMatch rest s pos with
      | none => rw [tokStep, hre, hr, tokStep, hr]
      | some q =>
        obtain ⟨nm, len⟩ := q
        obtain ⟨t, htmem, htn, _⟩ := reMatch_name_mem rest s pos nm len hr
        have hname_ne : nm ≠ k.name := by
          rw [← htn]
          exact hk_notin t htmem
        rw [tokStep, hre, hr, tokStep, hr]
        simp only
        rw [buildDict_cons_get_ne k rest nm hname_ne]

/-- Embedding of the Name pattern `[a-zA-Z_]\w*` (over ASCII text). -/
def isNameStart (c : Char) : Bool := c.isAlpha || c = '_'

def isWordChar (c : Char) : Bool := c.isAlphanum || c = '_'

def nameMatcher (s : Str) (p : Nat) : Option Nat :=
  match s.drop p with
  | [] => Option.none
  | c :: rest =>
    if isNameStart c then some (1 + (rest.takeWhile isWordChar).length)
    else Option.none

/-- Python `\s` over ASCII text. -/
def isPySpace (c : Char) : Bool :=
  c = ' ' || c = '\t' || c = '\n' || c = '\x0b' || c = '\x0c' || c = '\r'

/-- The continuation count of the lazy WhiteSpace pattern
`\s+?(?=($|[^\s]|[\n]))`: after at least one whitespace character, the
match is extended exactly while the next character is whitespace other
than a newline. -/
def wsExtend : Str → Nat
  | [] => 0
  | c :: rest => if isPySpace c && !(c = '\n') then 1 + wsExtend rest else 0

def wsMatcher (s : Str) (p : Nat) : Option Nat :=
  match s.drop p with
  | [] => Option.none
  | c :: rest => if isPySpace c then some (1 + wsExtend rest) else Option.none

/-- Witness for C4 on a concrete active set (Name before WhiteSpace) and
input: the combined-pattern step and the try-in-order step agree, both
producing the Name token "foo". -/
theorem tokenizer_first_match_witness :
    tokStep [⟨"Name", nameMatcher⟩, ⟨"WhiteSpace", wsMatcher⟩] "foo bar".toList 0 =
      refStep [⟨"Name", nameMatcher⟩, ⟨"WhiteSpace", wsMatcher⟩] "foo bar".toList 0 ∧
    tokStep [⟨"Name", nameMatcher⟩, ⟨"WhiteSpace", wsMatcher⟩] "foo bar".toList 0 =
      (some (⟨"Name", "foo".toList⟩, 0), 3) :=
  ⟨tokenizer_first_match _ _ _ (by decide), by decide⟩

/-- Repeated tokenizer steps from a position (with fuel): the produced
tokens in order, and the final position. -/
def tokRun : Nat → List TkKind → Str → Nat → List TkTok × Nat
  | 0, _, _, pos => ([], pos)
  | f + 1, alts, s, pos =>
    match tokStep alts s pos with
    | (Option.none, p) => ([], p)
    | (some (t, _), p) =>
      let (ts, p') := tokRun f alts s p
      (t :: ts, p')

theorem take_length_take {α : Type} (l : List α) (n : Nat) :
    l.take ((l.take n).length) = l.take n := by
  induction l generalizing n with
  | nil => simp
  | cons a as ih =>
    cases n with
    | zero => simp
    | succ m => simp [ih]

theorem tokStep_none_pos (alts : List TkKind) (s : Str) (pos : Nat)
    (h : (tokStep alts s pos).1 = Option.none) : (tokStep alts s pos).2 = pos := by
  unfold tokStep at h ⊢
  cases hre : reMatch alts s pos with
  | none => rfl
  | some q =>
    obtain ⟨nm, len⟩ := q
    rw [hre] at h
    simp only at h ⊢
    cases hd : dictGet (buildDict alts) nm with
    | none => rfl
    | some k =>
      rw [hd] at h
      simp at h

theorem tokStep_some_span (alts : List TkKind) (s : Str) (pos : Nat)
    (t : TkTok) (c : Nat) (h : (tokStep alts s pos).1 = some (t, c)) :
    c = pos ∧ pos ≤ (tokStep alts s pos).2 ∧
      t.matched = (s.drop pos).take ((tokStep alts s pos).2 - pos) := by
  unfold tokStep at h ⊢
  cases hre : reMatch alts s pos with
  | none =>
    rw [hre] at h
    simp at h
  | some q =>
    obtain ⟨nm, len⟩ := q
    rw [hre] at h
    simp only at h ⊢
    cases hd : dictGet (buildDict alts) nm with
    | none =>
      rw [hd] at h
      simp at h
    | some k =>
      rw [hd] at h
      simp at h
      obtain ⟨ht, hc⟩ := h
      refine ⟨hc.symm, by simp only; simp, ?_⟩
      rw [← ht]
      simp only
      rw [Nat.add_sub_cancel_left]
      exact (take_length_take (s.drop pos) len).symm

/-- C10 — The tokenizer neither skips nor duplicates characters: a step
returning no token leaves the position unchanged; a step returning a
token reports the old position as the column, advances the position, and
the token's matched text is exactly the substring between the old and
the new position; hence the concatenation of the matched texts of any
run of steps is exactly the consumed substring of the line. -/
theorem tokenizer_exact_span (alts : List TkKind) (s : Str) :
    (∀ pos, (tokStep alts s pos).1 = Option.none → (tokStep alts s pos).2 = pos) ∧
    (∀ pos t c, (tokStep alts s pos).1 = some (t, c) →
      c = pos ∧ pos ≤ (tokStep alts s pos).2 ∧
        t.matched = (s.drop pos).take ((tokStep alts s pos).2 - pos)) ∧
    (∀ f pos, pos ≤ (tokRun f alts s pos).2 ∧
      (tokRun f alts s pos).1.foldr (fun t acc => t.matched ++ acc) [] =
        (s.drop pos).take ((tokRun f alts s pos).2 - pos)) := by
  refine ⟨tokStep_none_pos alts s, tokStep_some_span alts s, ?_⟩
  intro f
  induction f with
  | zero => intro pos; simp [tokRun]
  | succ f ih =>
    intro pos
    rcases hstep : tokStep alts s pos with ⟨res, p⟩
    cases res with
    | none =>
      have hp : p = pos := by
        have := tokStep_none_pos alts s pos (by rw [hstep])
        rw [hstep] at this
        exact this
      subst hp
      simp [tokRun, hstep]
    | some tc =>
      obtain ⟨t, c⟩ := tc
      have hspan := tokStep_some_span alts s pos t c (by rw [hstep])
      rw [hstep] at hspan
      obtain ⟨hc, hle, hmt⟩ := hspan
      rcases hrun : tokRun f alts s p with ⟨ts, p'⟩
      have hrec := ih p
      rw [hrun] at hrec
      obtain ⟨hle', hcat⟩ := hrec
      have hfinal : tokRun (f + 1) alts s pos = (t :: ts, p') := by
        simp [tokRun, hstep, hrun]
      rw [hfinal]
      refine ⟨by simp at hle ⊢; omega, ?_⟩
      simp only [List.foldr_cons]
      rw [hcat, hmt]
      simp only at hle hle'
      have hsplit : p' - pos = (p - pos) + (p' - p) := by omega
      rw [hsplit, List.take_add]
      congr 1
      have hdd : (s.drop pos).drop (p - pos) = s.drop p := by
        rw [List.drop_drop]
        congr 1
        omega
      rw [hdd]

/-- Witness for C10 at a concrete input: the step at position 0 of
"foo bar" produces the Name token "foo", whose matched text is exactly
the substring from the old position to the new one. -/
theorem tokenizer_exact_span_witness :
    (tokStep [⟨"Name", nameMatcher⟩, ⟨"WhiteSpace", wsMatcher⟩] "foo bar".toList 0).1 =
      some (⟨"Name", "foo".toList⟩, 0) ∧
    (⟨"Name", "foo".toList⟩ : TkTok).matched =
      ("foo bar".toList.drop 0).take
        ((tokStep [⟨"Name", nameMatcher⟩, ⟨"WhiteSpace", wsMatcher⟩] "foo bar".toList 0).2 - 0) := by
  have h : (tokStep [⟨"Name", nameMatcher⟩, ⟨"WhiteSpace", wsMatcher⟩] "foo bar".toList 0).1 =
      some (⟨"Name", "foo".toList⟩, 0) := by decide
  exact ⟨h, ((tokenizer_exact_span _ _).2.1 0 _ 0 h).2.2⟩

/-! ## Lexer state machine (src/lexer/lexer.py)

The lexer is a stack of Contexts plus a Mode and the multiline-string
nesting counter.  Contexts are embedded with the fields the verified
properties depend on: `is_file` (whether the line stream reads a real
path), the macro table, the accumulator, the current and nascent macro
calls, the tokenizer's remaining input and the line stream's remaining
lines (each line keeps its trailing newline, as `readline` yields them).
Locations and the per-mode token sets of the tokenizer are outside this
model; `lexNext` covers the end-of-input handling of `__next__` exactly
and reports "a token is about to be scanned" as the `scan` outcome. -/

inductive Mode where
  | default
  | multilineString
  | macroDefinition
  | preprocessor
  | macroExpansion
deriving DecidableEq, Repr

/-- A macro call being collected: name, captured positional arguments,
and the optional-call flag. -/
structure MacroCall where
  name : String
  args : List Str
  isOptional : Bool
deriving DecidableEq, Repr

/-- A lexical Context (class Context): `cCall` is the call currently
being substituted into this frame, `nCall` the call collecting
arguments. -/
structure Ctx where
  isFile : Bool
  macros : List (String × Str)
  acc : Str
  cCall : Option MacroCall
  nCall : Option MacroCall
  tokInput : Str
  lines : List Str
deriving DecidableEq, Repr

/-- The Lexer state: Context stack (innermost first, i.e. Python's
`reversed(self.stack)` order, so `self.x` is the head), current Mode and
the `in_multiline_string` counter. -/
structure LexState where
  stack : List Ctx
  mode : Mode
  inMultilineString : Nat
deriving DecidableEq, Repr

inductive LexError where
  | unexpectedEndOfInput
  | undefinedMacroName (n : String)
  | undefinedMacroArg (i : Nat)
  | attributeFault
deriving DecidableEq, Repr

/-- `readline` splitting: each line keeps its trailing newline; a final
fragment without a newline is its own line; the empty source has no
lines. -/
def linesOf : Str → List Str
  | [] => []
  | c :: rest =>
    if c = '\n' then ['\n'] :: linesOf rest
    else
      match linesOf rest with
      | [] => [[c]]
      | l :: ls => (c :: l) :: ls

/-- Context(source, macro_call) for an in-memory string source: not a
file, empty macro table and accumulator, fresh tokenizer. -/
def ctxOfString (source : Str) (mcall : Option MacroCall) : Ctx :=
  ⟨false, [], [], mcall, Option.none, [], linesOf source⟩

/-- The stack walk of Lexer.add_macro: store the binding on the first
(innermost) file Context, if any. -/
def addMacroFile : List Ctx → String → Str → Option (List Ctx)
  | [], _, _ => Option.none
  | x :: rest, n, v =>
    if x.isFile then some ({ x with macros := dictSet x.macros n v } :: rest)
    else (addMacroFile rest n v).map (x :: ·)

/-- Lexer.add_macro: walk the stack innermost to outermost and store the
binding on the first file Context; if no Context is a file, store it on
`self.x`, the current (innermost) Context. -/
def addMacroDef (st : LexState) (name : String) (value : Str) : LexState :=
  match addMacroFile st.stack name value with
  | some stk => { st with stack := stk }
  | Option.none =>
    match st.stack with
    | [] => st
    | x :: rest =>
      { st with stack := { x with macros := dictSet x.macros name value } :: rest }

/-- Lexer.resolve_macro: search the Contexts innermost to outermost for
the name; on failure raise UndefinedMacro unless the call is optional,
in which case substitute empty text. -/
def resolveMacroName : List Ctx → MacroCall → Except LexError Str
  | [], mc =>
    if !mc.isOptional then .error (.undefinedMacroName mc.name) else .ok []
  | x :: rest, mc =>
    match dictGet x.macros mc.name with
    | some v => .ok v
    | Option.none => resolveMacroName rest mc

/-- Outcome of producing one token: a raised error, the end-of-stream
sentinel (Python None), or "a line is available and a token is about to
be scanned" with the state at that point (the token dispatch itself is
outside this model). -/
inductive LexOut where
  | err (e : LexError)
  | eos
  | scan (st : LexState)
deriving DecidableEq, Repr

/-- The end-of-input handling of Lexer.__next__ (lines 167-189): when
the current tokenizer is exhausted pull the next line; if the line
stream is exhausted too, fail in MacroExpansion mode; otherwise with
more than one Context pop the current one (decrementing the
multiline-string counter if it was a file and a multiline string is
open, restoring MacroDefinition mode or else Preprocessor) and retry;
with a single Context left fail in MultilineString mode, else produce
the sentinel. -/
def lexNext : Nat → LexState → Option LexOut
  | 0, _ => Option.none
  | f + 1, st =>
    match st.stack with
    | [] => some (.err .attributeFault)
    | x :: rest =>
      if x.tokInput.isEmpty then
        match x.lines with
        | line :: more =>
          some (.scan { st with stack := { x with tokInput := line, lines := more } :: rest })
        | [] =>
          if st.mode = .macroExpansion then some (.err .unexpectedEndOfInput)
          else if !rest.isEmpty then
            let ims := if x.isFile && decide (st.inMultilineString ≠ 0) then
                st.inMultilineString - 1
              else st.inMultilineString
            let mode' := if st.mode = .macroDefinition then Mode.macroDefinition
              else Mode.preprocessor
            lexNext f { stack := rest, mode := mode', inMultilineString := ims }
          else if st.mode = .multilineString then some (.err .unexpectedEndOfInput)
          else some .eos
      else some (.scan st)

/-- The MacroArgument branch of Lexer.__next__ (lines 202-209), entered
with the scanned token's processed value (the 0-based argument index)
and the state after the scan (`tokInput` is the unconsumed remainder of
the line): raise UndefinedMacroArgument if the index is out of range,
else append the argument and the remainder to the accumulator, push a
new Context over that buffer and resume Preprocessor. -/
def handleMacroArg (st : LexState) (argIdx : Nat) : Except LexError LexState :=
  match st.stack with
  | [] => .error .attributeFault
  | x :: rest =>
    match x.cCall with
    | Option.none => .error .attributeFault
    | some mc =>
      if mc.args.length ≤ argIdx then .error (.undefinedMacroArg argIdx)
      else
        let acc2 := (x.acc ++ mc.args.getD argIdx []) ++ x.tokInput
        .ok { stack := ctxOfString acc2 (some mc) :: { x with acc := [], tokInput := [] } :: rest,
              mode := .preprocessor,
              inMultilineString := st.inMultilineString }

/-- MacroArgument.process: `int(value[2:-1]) - 1` — the digits between
`${` and `}`, 1-based in the source, stored 0-based. -/
def digitVal (c : Char) : Nat := c.toNat - 48

def natOfDigits (ds : Str) : Nat := ds.foldl (fun a c => a * 10 + digitVal c) 0

def macroArgValue (s : Str) : Nat := natOfDigits ((s.drop 2).dropLast) - 1

theorem addMacroFile_none (stk : List Ctx) (n : String) (v : Str)
    (h : ∀ y ∈ stk, y.isFile = false) : addMacroFile stk n v = Option.none := by
  induction stk with
  | nil => rfl
  | cons x rest ih =>
    have hx : x.isFile = false := h x (by simp)
    have hrec := ih (fun y hy => h y (by simp [hy]))
    simp [addMacroFile, hx, hrec]

theorem addMacroFile_found (pre : List Ctx) (x : Ctx) (post : List Ctx)
    (n : String) (v : Str) (hpre : ∀ y ∈ pre, y.isFile = false)
    (hx : x.isFile = true) :
    addMacroFile (pre ++ x :: post) n v =
      some (pre ++ { x with macros := dictSet x.macros n v } :: post) := by
  induction pre with
  | nil => simp [addMacroFile, hx]
  | cons y rest ih =>
    have hy : y.isFile = false := hpre y (by simp)
    have hrec := ih (fun z hz => hpre z (by simp [hz]))
    simp [addMacroFile, hy, hrec]

/-- A non-file Context at the top of an all-non-file stack ends up
holding the macro definition, not the outermost Context: with two
string-buffer Contexts on the stack, add_macro stores the binding on the
innermost one and the outermost table stays empty — contradicting
"stored on the outermost Context" and "non-file Contexts never hold
macro definitions". -/
theorem add_macro_innermost_counterexample :
    (∀ x ∈ (⟨[⟨false, [], [], Option.none, Option.none, [], []⟩,
        ⟨false, [], [], Option.none, Option.none, [], []⟩], .preprocessor, 0⟩ : LexState).stack,
      x.isFile = false) ∧
    (addMacroDef ⟨[⟨false, [], [], Option.none, Option.none, [], []⟩,
        ⟨false, [], [], Option.none, Option.none, [], []⟩], .preprocessor, 0⟩ "m" ['v']).stack =
      [⟨false, [("m", ['v'])], [], Option.none, Option.none, [], []⟩,
       ⟨false, [], [], Option.none, Option.none, [], []⟩] ∧
    ((addMacroDef ⟨[⟨false, [], [], Option.none, Option.none, [], []⟩,
        ⟨false, [], [], Option.none, Option.none, [], []⟩], .preprocessor, 0⟩ "m" ['v']).stack.getLast?).map
      (fun x => dictGet x.macros "m") = some Option.none := by
  refine ⟨by decide, by decide, by decide⟩

/-- C5 (amended) — add_macro stores the binding on the nearest enclosing
file Context, walking the stack innermost to outermost; when no Context
on the stack is a file, it stores the binding on the current (innermost)
Context. -/
theorem add_macro_nearest_file :
    (∀ (pre : List Ctx) (x : Ctx) (post : List Ctx) (mode : Mode) (ims : Nat)
        (n : String) (v : Str),
      (∀ y ∈ pre, y.isFile = false) → x.isFile = true →
      (addMacroDef ⟨pre ++ x :: post, mode, ims⟩ n v).stack =
        pre ++ { x with macros := dictSet x.macros n v } :: post) ∧
    (∀ (x : Ctx) (rest : List Ctx) (mode : Mode) (ims : Nat) (n : String) (v : Str),
      (∀ y ∈ x :: rest, y.isFile = false) →
      (addMacroDef ⟨x :: rest, mode, ims⟩ n v).stack =
        { x with macros := dictSet x.macros n v } :: rest) := by
  constructor
  · intro pre x post mode ims n v hpre hx
    unfold addMacroDef
    rw [addMacroFile_found pre x post n v hpre hx]
  · intro x rest mode ims n v hall
    unfold addMacroDef
    rw [addMacroFile_none (x :: rest) n v hall]

/-- Witness for the amended C5: a file Context below two buffer Contexts
receives the binding; with no file anywhere, the top Context does. -/
theorem add_macro_nearest_file_witness :
    (addMacroDef ⟨[⟨false, [], [], Option.none, Option.none, [], []⟩,
        ⟨true, [], [], Option.none, Option.none, [], []⟩,
        ⟨true, [("old", ['x'])], [], Option.none, Option.none, [], []⟩], .preprocessor, 0⟩
      "m" ['v']).stack =
      [⟨false, [], [], Option.none, Option.none, [], []⟩,
       ⟨true, [("m", ['v'])], [], Option.none, Option.none, [], []⟩,
       ⟨true, [("old", ['x'])], [], Option.none, Option.none, [], []⟩] ∧
    (addMacroDef ⟨[⟨false, [], [], Option.none, Option.none, [], []⟩], .default, 0⟩
      "m" ['v']).stack =
      [⟨false, [("m", ['v'])], [], Option.none, Option.none, [], []⟩] := by
  constructor
  · exact add_macro_nearest_file.1
      [⟨false, [], [], Option.none, Option.none, [], []⟩]
      ⟨true, [], [], Option.none, Option.none, [], []⟩
      [⟨true, [("old", ['x'])], [], Option.none, Option.none, [], []⟩]
      .preprocessor 0 "m" ['v'] (by decide) (by decide)
  · exact add_macro_nearest_file.2
      ⟨false, [], [], Option.none, Option.none, [], []⟩ [] .default 0 "m" ['v'] (by decide)

/-- With two Contexts on the stack, both exhausted, and Mode
MultilineString, producing the next token does not raise
UnexpectedEndOfInput: the current Context is popped and the retry ends
in the sentinel — contradicting "raises regardless of how many Contexts
remain". -/
theorem lexer_eof_multiline_counterexample :
    (⟨[⟨false, [], [], Option.none, Option.none, [], []⟩,
       ⟨false, [], [], Option.none, Option.none, [], []⟩],
      .multilineString, 1⟩ : LexState).mode = .multilineString ∧
    (⟨[⟨false, [], [], Option.none, Option.none, [], []⟩,
       ⟨false, [], [], Option.none, Option.none, [], []⟩],
      .multilineString, 1⟩ : LexState).stack.length = 2 ∧
    lexNext 3 ⟨[⟨false, [], [], Option.none, Option.none, [], []⟩,
       ⟨false, [], [], Option.none, Option.none, [], []⟩], .multilineString, 1⟩ =
      some .eos ∧
    some LexOut.eos ≠ some (LexOut.err .unexpectedEndOfInput) := by
  refine ⟨rfl, rfl, by decide, by decide⟩

/-- C6 (amended) — With the current Context's tokenizer and line stream
exhausted: in MacroExpansion mode the next token raises
UnexpectedEndOfInput regardless of how many Contexts remain; in
MultilineString mode it raises only when a single Context remains (with
more Contexts the current one is popped and production continues); in
Preprocessor or Default mode with a single Context left it produces the
end-of-stream sentinel. -/
theorem lexer_eof_by_mode (f : Nat) (st : LexState) (x : Ctx) (rest : List Ctx)
    (hstack : st.stack = x :: rest) (htok : x.tokInput = []) (hlines : x.lines = []) :
    (st.mode = .macroExpansion →
      lexNext (f + 1) st = some (.err .unexpectedEndOfInput)) ∧
    (rest = [] → st.mode = .multilineString →
      lexNext (f + 1) st = some (.err .unexpectedEndOfInput)) ∧
    (rest = [] → (st.mode = .preprocessor ∨ st.mode = .default) →
      lexNext (f + 1) st = some .eos) := by
  refine ⟨?_, ?_, ?_⟩
  · intro hmode
    simp [lexNext, hstack, htok, hlines, hmode]
  · intro hrest hmode
    subst hrest
    simp [lexNext, hstack, htok, hlines, hmode]
  · intro hrest hmode
    subst hrest
    cases hmode with
    | inl h => simp [lexNext, hstack, htok, hlines, h]
    | inr h => simp [lexNext, hstack, htok, hlines, h]

/-- Witness for the amended C6 at concrete exhausted states: exhaustion
raises in MacroExpansion mode even with two Contexts, raises in
MultilineString mode with one Context, and yields the sentinel in
Preprocessor mode with one Context. -/
theorem lexer_eof_by_mode_witness :
    lexNext 3 ⟨[⟨false, [], [], Option.none, Option.none, [], []⟩,
        ⟨false, [], [], Option.none, Option.none, [], []⟩], .macroExpansion, 0⟩ =
      some (.err .unexpectedEndOfInput) ∧
    lexNext 3 ⟨[⟨false, [], [], Option.none, Option.none, [], []⟩], .multilineString, 1⟩ =
      some (.err .unexpectedEndOfInput) ∧
    lexNext 3 ⟨[⟨false, [], [], Option.none, Option.none, [], []⟩], .preprocessor, 0⟩ =
      some .eos := by
  refine ⟨?_, ?_, ?_⟩
  · exact (lexer_eof_by_mode 2 _ _ _ rfl rfl rfl).1 rfl
  · exact (lexer_eof_by_mode 2 _ _ _ rfl rfl rfl).2.1 rfl rfl
  · exact (lexer_eof_by_mode 2 _ _ _ rfl rfl rfl).2.2 rfl (Or.inl rfl)

/-- C7 — resolve_macro raises UndefinedMacro exactly when the name is in
no Context's macro table (searching innermost to outermost) and the call
is not optional; an optional call to an undefined name resolves to the
empty string with no error. -/
theorem resolve_macro_spec (stack : List Ctx) (mc : MacroCall) :
    ((resolveMacroName stack mc = .error (.undefinedMacroName mc.name)) ↔
      (mc.isOptional = false ∧ ∀ x ∈ stack, dictGet x.macros mc.name = Option.none)) ∧
    ((∀ x ∈ stack, dictGet x.macros mc.name = Option.none) → mc.isOptional = true →
      resolveMacroName stack mc = .ok []) := by
  induction stack with
  | nil =>
    constructor
    · constructor
      · intro h
        simp only [resolveMacroName] at h
        by_cases ho : mc.isOptional <;> simp [ho] at h ⊢
      · intro ⟨ho, _⟩
        simp [resolveMacroName, ho]
    · intro _ ho
      simp [resolveMacroName, ho]
  | cons x rest ih =>
    constructor
    · constructor
      · intro h
        simp only [resolveMacroName] at h
        cases hd : dictGet x.macros mc.name with
        | some v => rw [hd] at h; simp at h
        | none =>
          rw [hd] at h
          obtain ⟨ho, hall⟩ := ih.1.mp h
          exact ⟨ho, fun y hy => by
            rcases List.mem_cons.mp hy with h1 | h2
            · rw [h1]; exact hd
            · exact hall y h2⟩
      · intro ⟨ho, hall⟩
        simp only [resolveMacroName]
        rw [hall x (by simp)]
        exact ih.1.mpr ⟨ho, fun y hy => hall y (by simp [hy])⟩
    · intro hall ho
      simp only [resolveMacroName]
      rw [hall x (by simp)]
      exact ih.2 (fun y hy => hall y (by simp [hy])) ho

/-- Witness for C7: a non-optional call to an undefined name errors; an
optional call to the same undefined name resolves to empty text. -/
theorem resolve_macro_spec_witness :
    resolveMacroName [⟨false, [("other", ['x'])], [], Option.none, Option.none, [], []⟩]
      ⟨"missing", [], false⟩ = .error (.undefinedMacroName "missing") ∧
    resolveMacroName [⟨false, [("other", ['x'])], [], Option.none, Option.none, [], []⟩]
      ⟨"missing", [], true⟩ = .ok [] := by
  constructor
  · exact (resolve_macro_spec _ _).1.mpr ⟨rfl, by decide⟩
  · exact (resolve_macro_spec _ _).2 (by decide) rfl

/-- C8 — While a macro call with k captured arguments is being
substituted (it is the current Context's c_call), a macro-argument token
`${N}` (1-based in the source; MacroArgument.process stores N-1) raises
UndefinedMacroArgument exactly when N > k; otherwise the N-th captured
argument followed by the unconsumed remainder of the line is appended to
the accumulator, and a new Context over that buffer is pushed and
re-lexed in Preprocessor mode. -/
theorem macro_argument_bounds (st : LexState) (x : Ctx) (rest : List Ctx)
    (mc : MacroCall) (ds : Str) (N : Nat)
    (hstack : st.stack = x :: rest) (hc : x.cCall = some mc)
    (hds : natOfDigits ds = N) (hN : 1 ≤ N) :
    (mc.args.length < N →
      handleMacroArg st (macroArgValue ('$' :: '{' :: (ds ++ ['}']))) =
        .error (.undefinedMacroArg (N - 1))) ∧
    (N ≤ mc.args.length →
      handleMacroArg st (macroArgValue ('$' :: '{' :: (ds ++ ['}']))) =
        .ok ⟨ctxOfString ((x.acc ++ mc.args.getD (N - 1) []) ++ x.tokInput) (some mc) ::
              { x with acc := [], tokInput := [] } :: rest,
             .preprocessor, st.inMultilineString⟩) := by
  have hval : macroArgValue ('$' :: '{' :: (ds ++ ['}'])) = N - 1 := by
    simp [macroArgValue, hds]
  rw [hval]
  unfold handleMacroArg
  rw [hstack]
  simp only
  rw [hc]
  constructor
  · intro hlt
    have hcond : mc.args.length ≤ N - 1 := by omega
    simp [hcond]
  · intro hle
    have hcond : ¬ (mc.args.length ≤ N - 1) := by omega
    simp [hcond]

/-- Witness for C8: with one captured argument, substituting argument 1
pushes a buffer made of the accumulator, the argument and the line
remainder, while argument 2 raises UndefinedMacroArgument. -/
theorem macro_argument_bounds_witness :
    handleMacroArg ⟨[⟨false, [], "P".toList, some ⟨"m", [['A']], false⟩,
        Option.none, "rem".toList, []⟩], .preprocessor, 0⟩
      (macroArgValue "${1}".toList) =
      .ok ⟨ctxOfString (("P".toList ++ ['A']) ++ "rem".toList) (some ⟨"m", [['A']], false⟩) ::
            ⟨false, [], [], some ⟨"m", [['A']], false⟩, Option.none, [], []⟩ :: [],
           .preprocessor, 0⟩ ∧
    handleMacroArg ⟨[⟨false, [], "P".toList, some ⟨"m", [['A']], false⟩,
        Option.none, "rem".toList, []⟩], .preprocessor, 0⟩
      (macroArgValue "${2}".toList) =
      .error (.undefinedMacroArg 1) := by
  constructor
  · exact (macro_argument_bounds
      ⟨[⟨false, [], "P".toList, some ⟨"m", [['A']], false⟩, Option.none, "rem".toList, []⟩],
        .preprocessor, 0⟩
      ⟨false, [], "P".toList, some ⟨"m", [['A']], false⟩, Option.none, "rem".toList, []⟩
      [] ⟨"m", [['A']], false⟩ ['1'] 1 rfl rfl (by decide) (by decide)).2 (by decide)
  · exact (macro_argument_bounds
      ⟨[⟨false, [], "P".toList, some ⟨"m", [['A']], false⟩, Option.none, "rem".toList, []⟩],
        .preprocessor, 0⟩
      ⟨false, [], "P".toList, some ⟨"m", [['A']], false⟩, Option.none, "rem".toList, []⟩
      [] ⟨"m", [['A']], false⟩ ['2'] 2 rfl rfl (by decide) (by decide)).1 (by decide)

/-! ## Multiline-string de-indentation (src/tm/lexer/tokens.py,
MultilineString.process)

`MultilineString.process(text)` is `dedent(text.lstrip('\n'))`:
`lstrip` removes leading newline characters only, and `textwrap.dedent`
(ported here from CPython) first blanks every line consisting solely of
spaces and tabs, then computes the margin — the common prefix of the
leading whitespace runs of the remaining content lines, via the
startswith/else-scan loop of the library — and removes that margin from
the start of every line that carries it. -/

def isIndentChar (c : Char) : Bool := c == ' ' || c == '\t'

/-- Split a text into lines at newline characters (the newlines are not
kept; a trailing newline yields a final empty segment), mirroring how
the MULTILINE anchors of dedent's regexes see the text. -/
def splitNL : Str → List Str
  | [] => [[]]
  | c :: rest =>
    if c = '\n' then [] :: splitNL rest
    else
      match splitNL rest with
      | [] => [[c]]
      | l :: ls => (c :: l) :: ls

/-- Rejoin what `splitNL` produced. -/
def joinNL : List Str → Str
  | [] => []
  | [l] => l
  | l :: ls => l ++ '\n' :: joinNL ls

/-- The `_whitespace_only_re.sub('', text)` pass: a non-empty line made
only of spaces and tabs becomes empty. -/
def blankWsLines (ls : List Str) : List Str :=
  ls.map (fun l => if !l.isEmpty && l.all isIndentChar then [] else l)

/-- A line's leading run of spaces and tabs. -/
def leadIndent (l : Str) : Str := l.takeWhile isIndentChar

/-- Whether `_leading_whitespace_re` matches the line: some character
beyond the leading whitespace run. -/
def hasContent (l : Str) : Bool := !(l.dropWhile isIndentChar).isEmpty

/-- `_leading_whitespace_re.findall`: the leading whitespace runs of the
content lines, in order. -/
def indentsOf (ls : List Str) : List Str := (ls.filter hasContent).map leadIndent

/-- The character-by-character scan of dedent's else branch: the common
prefix up to the first mismatch. -/
def lcpChars : Str → Str → Str
  | a :: as, b :: bs => if a = b then a :: lcpChars as bs else []
  | _, _ => []

/-- One iteration of dedent's margin loop. -/
def marginStep (m ind : Str) : Str :=
  if m.isPrefixOf ind then m
  else if ind.isPrefixOf m then ind
  else lcpChars m ind

/-- dedent's margin: None when there is no content line. -/
def marginOf (inds : List Str) : Option Str :=
  inds.foldl
    (fun m? ind =>
      match m? with
      | Option.none => some ind
      | some m => some (marginStep m ind))
    Option.none

/-- One line of the `re.sub(r'(?m)^' + margin, '', text)` pass: the
margin is removed where the line starts with it. -/
def stripMarginLine (m : Str) (l : Str) : Str :=
  if m.isPrefixOf l then l.drop m.length else l

/-- textwrap.dedent, ported from CPython. -/
def dedentStr (t : Str) : Str :=
  let ls := blankWsLines (splitNL t)
  match marginOf (indentsOf ls) with
  | some m => if !m.isEmpty then joinNL (ls.map (stripMarginLine m)) else joinNL ls
  | Option.none => joinNL ls

/-- MultilineString.process: `dedent(text.lstrip('\n'))`. -/
def mlProcess (t : Str) : Str := dedentStr (t.dropWhile (· = '\n'))

/-- The value the claim describes, written from its words: remove the
leading blank lines, compute the longest common leading-whitespace run
of the (non-blank) lines, and strip it from every line. -/
def claimDeindent (t : Str) : Str :=
  let ls := (splitNL t).dropWhile (fun l => l.all isIndentChar)
  let com :=
    match (ls.filter (fun l => !l.all isIndentChar)).map leadIndent with
    | [] => []
    | i :: is => is.foldl lcpChars i
  joinNL (ls.map (fun l => l.drop com.length))

/-- Each captured line, followed by its newline. -/
def concatNL (lines : List Str) : Str :=
  lines.foldr (fun l acc => l ++ '\n' :: acc) []

/-- A multiline string whose captured text has a whitespace-only middle
line: the code blanks that line entirely (dedent's whitespace-only pass)
rather than stripping just the common run from it, so the value differs
from the claim's description of "the longest common leading-whitespace
run stripped from every line". -/
theorem multiline_dedent_counterexample :
    mlProcess "  a\n   \n  b\n".toList = "a\n\nb\n".toList ∧
    claimDeindent "  a\n   \n  b\n".toList = "a\n \nb\n".toList ∧
    mlProcess "  a\n   \n  b\n".toList ≠ claimDeindent "  a\n   \n  b\n".toList := by
  refine ⟨by decide, by decide, by decide⟩

theorem splitNL_noNL_append (l : Str) (t : Str) (h : '\n' ∉ l) :
    splitNL (l ++ '\n' :: t) = l :: splitNL t := by
  induction l with
  | nil => simp [splitNL]
  | cons c r ih =>
    have hc : ¬ c = '\n' := by
      intro he
      exact h (by simp [he])
    have hr : '\n' ∉ r := fun hm => h (by simp [hm])
    simp only [List.cons_append, splitNL, hc, if_false, List.append_eq]
    rw [ih hr]

theorem splitNL_concatNL (lines : List Str) (h : ∀ l ∈ lines, '\n' ∉ l) :
    splitNL (concatNL lines) = lines ++ [[]] := by
  induction lines with
  | nil => rfl
  | cons l rest ih =>
    show splitNL (l ++ '\n' :: concatNL rest) = _
    rw [splitNL_noNL_append l _ (h l (by simp)),
        ih (fun x hx => h x (by simp [hx]))]
    rfl

theorem joinNL_append_nil (lines : List Str) :
    joinNL (lines ++ [[]]) = concatNL lines := by
  induction lines with
  | nil => rfl
  | cons l rest ih =>
    cases rest with
    | nil => rfl
    | cons m rs =>
      have h1 : joinNL (l :: ((m :: rs) ++ [[]])) =
          l ++ '\n' :: joinNL ((m :: rs) ++ [[]]) := rfl
      show joinNL (l :: ((m :: rs) ++ [[]])) = _
      rw [h1, ih]
      rfl

theorem blankWs_of_content (segs : List Str)
    (h : ∀ l ∈ segs, l = [] ∨ l.all isIndentChar = false) :
    blankWsLines segs = segs := by
  unfold blankWsLines
  have hcong : ∀ l ∈ segs,
      (if !l.isEmpty && l.all isIndentChar then ([] : Str) else l) = id l := by
    intro l hl
    rcases h l hl with h1 | h2
    · subst h1; rfl
    · simp [h2]
  rw [List.map_congr_left hcong, List.map_id]

theorem dropWhile_indent_append (ind m : Str)
    (hind : ∀ c ∈ ind, isIndentChar c = true) :
    (ind ++ m).dropWhile isIndentChar = m.dropWhile isIndentChar := by
  rw [List.dropWhile_append]
  have h1 : ind.dropWhile isIndentChar = [] := List.dropWhile_eq_nil_iff.mpr hind
  simp [h1]

theorem leadIndent_append (ind : Str) (c : Char) (r : Str)
    (hind : ∀ x ∈ ind, isIndentChar x = true) (hc : isIndentChar c = false) :
    leadIndent (ind ++ c :: r) = ind := by
  unfold leadIndent
  rw [List.takeWhile_append]
  have h1 : ind.takeWhile isIndentChar = ind := List.takeWhile_eq_self_iff.mpr hind
  simp [h1, List.takeWhile_cons, hc]

theorem foldl_marginStep_const (ind : Str) (k : List Str) (h : ∀ i ∈ k, i = ind) :
    k.foldl
      (fun m? i =>
        match m? with
        | Option.none => some i
        | some m => some (marginStep m i))
      (some ind) = some ind := by
  induction k with
  | nil => rfl
  | cons i rest ih =>
    have hi : i = ind := h i (by simp)
    subst hi
    have hstep : marginStep i i = i := by
      unfold marginStep
      have : i.isPrefixOf i = true := List.isPrefixOf_iff_prefix.mpr (List.prefix_refl i)
      simp [this]
    simp only [List.foldl_cons, hstep]
    exact ih (fun x hx => h x (by simp [hx]))

theorem stripMargin_append (ind l : Str) : stripMarginLine ind (ind ++ l) = l := by
  unfold stripMarginLine
  have h1 : ind.isPrefixOf (ind ++ l) = true :=
    List.isPrefixOf_iff_prefix.mpr (List.prefix_append ind l)
  simp [h1, List.drop_left]

theorem stripMargin_nil_of_ne (ind : Str) (h : ind ≠ []) :
    stripMarginLine ind [] = [] := by
  unfold stripMarginLine
  cases ind with
  | nil => simp at h
  | cons c r => rfl

/-- C9 (amended) — De-indentation round trip: for a captured text made of
lines that each carry the same uniform indentation (spaces and tabs)
before a non-whitespace first content character, possibly preceded by
blank lines made of newline characters alone, MultilineString.process
removes exactly the leading newlines and that common indentation prefix
from every line and nothing more.  (Whitespace-only lines are excluded:
the code blanks them entirely, and a leading line of spaces is not
removed by lstrip — see the counterexample.) -/
theorem multiline_uniform_dedent (ind : Str) (ls : List Str) (k : Nat)
    (hind : ∀ c ∈ ind, isIndentChar c = true)
    (hne : ls ≠ [])
    (hl : ∀ l ∈ ls, ∃ c r, l = c :: r ∧ isIndentChar c = false ∧ c ≠ '\n' ∧ '\n' ∉ r) :
    mlProcess (List.replicate k '\n' ++ concatNL (ls.map (ind ++ ·))) = concatNL ls := by
  have hindNl : '\n' ∉ ind := by
    intro hmem
    have := hind '\n' hmem
    simp [isIndentChar] at this
  have hsegNl : ∀ l ∈ ls.map (ind ++ ·), '\n' ∉ l := by
    intro l hlmem
    obtain ⟨l0, hl0, hleq⟩ := List.mem_map.mp hlmem
    obtain ⟨c, r, heq, _, hcNl, hrNl⟩ := hl l0 hl0
    subst hleq
    intro hmem
    rcases List.mem_append.mp hmem with h1 | h2
    · exact hindNl h1
    · rw [heq] at h2
      rcases List.mem_cons.mp h2 with h3 | h4
      · exact hcNl h3.symm
      · exact hrNl h4
  -- the leading newlines are removed and nothing else
  have hdrop : (List.replicate k '\n' ++ concatNL (ls.map (ind ++ ·))).dropWhile
      (fun c => c = '\n') = concatNL (ls.map (ind ++ ·)) := by
    rw [List.dropWhile_append]
    have hrep : (List.replicate k '\n').dropWhile (fun c => c = '\n') = [] :=
      List.dropWhile_eq_nil_iff.mpr (by
        intro x hx
        simp [List.eq_of_mem_replicate hx])
    rw [hrep]
    simp only [List.isEmpty_nil, if_pos]
    cases hls : ls with
    | nil => exact absurd hls hne
    | cons l0 rest0 =>
      obtain ⟨c, r, heq, hcInd, hcNl, _⟩ := hl l0 (by simp [hls])
      cases hi : ind with
      | nil =>
        show List.dropWhile _ (([] ++ l0) ++ '\n' :: _) = _
        rw [heq]
        simp [List.dropWhile_cons, hcNl, concatNL]
      | cons i ir =>
        have hiInd : isIndentChar i = true := hind i (by simp [hi])
        have hiNl : ¬ (i = '\n') := by
          intro he
          rw [he] at hiInd
          simp [isIndentChar] at hiInd
        show List.dropWhile _ (((i :: ir) ++ l0) ++ '\n' :: _) = _
        simp [List.dropWhile_cons, hiNl, concatNL, List.append_assoc]
  unfold mlProcess
  rw [hdrop]
  unfold dedentStr
  have hsplit : splitNL (concatNL (ls.map (ind ++ ·))) = ls.map (ind ++ ·) ++ [[]] :=
    splitNL_concatNL _ hsegNl
  rw [hsplit]
  have hblank : blankWsLines (ls.map (ind ++ ·) ++ [[]]) = ls.map (ind ++ ·) ++ [[]] := by
    apply blankWs_of_content
    intro l hlmem
    rcases List.mem_append.mp hlmem with h1 | h2
    · right
      obtain ⟨l0, hl0, hleq⟩ := List.mem_map.mp h1
      obtain ⟨c, r, heq, hcInd, _, _⟩ := hl l0 hl0
      rw [← hleq, heq]
      simp [List.all_append, hcInd]
    · left
      simpa using h2
  rw [hblank]
  dsimp only
  have hfilter : (ls.map (ind ++ ·) ++ [[]]).filter hasContent = ls.map (ind ++ ·) := by
    rw [List.filter_append]
    have h2 : List.filter hasContent [([] : Str)] = [] := by
      simp [hasContent, List.filter]
    rw [h2, List.append_nil]
    apply List.filter_eq_self.mpr
    intro l hlmem
    obtain ⟨l0, hl0, hleq⟩ := List.mem_map.mp hlmem
    obtain ⟨c, r, heq, hcInd, _, _⟩ := hl l0 hl0
    rw [← hleq, heq]
    unfold hasContent
    rw [dropWhile_indent_append ind _ hind]
    simp [List.dropWhile_cons, hcInd]
  have hindents : indentsOf (ls.map (ind ++ ·) ++ [[]]) = ls.map (fun _ => ind) := by
    unfold indentsOf
    rw [hfilter, List.map_map]
    apply List.map_congr_left
    intro l0 hl0
    obtain ⟨c, r, heq, hcInd, _, _⟩ := hl l0 hl0
    show leadIndent (ind ++ l0) = ind
    rw [heq]
    exact leadIndent_append ind c r hind hcInd
  rw [hindents]
  cases hls : ls with
  | nil => exact absurd hls hne
  | cons l0 rest0 =>
    have hmargin : marginOf ((l0 :: rest0).map (fun _ => ind)) = some ind := by
      unfold marginOf
      simp only [List.map_cons, List.foldl_cons]
      exact foldl_marginStep_const ind (rest0.map (fun _ => ind))
        (fun x hx => by
          obtain ⟨_, _, hxeq⟩ := List.mem_map.mp hx
          exact hxeq.symm)
    rw [← hls] at hmargin ⊢
    rw [hmargin]
    cases hi : ind with
    | nil =>
      simp only [hi, List.isEmpty_nil, Bool.not_true, Bool.false_eq_true, if_false]
      have hmap : ls.map (([] : Str) ++ ·) = ls := by
        simp
      rw [hmap, joinNL_append_nil]
    | cons i ir =>
      rw [← hi]
      dsimp only
      have hiempty : (!ind.isEmpty) = true := by
        rw [hi]
        rfl
      rw [if_pos hiempty]
      have hmapstrip : (ls.map (ind ++ ·) ++ [[]]).map (stripMarginLine ind) =
          ls ++ [[]] := by
        rw [List.map_append, List.map_map]
        congr 1
        · apply List.ext_getElem (by simp)
          intro n h1 h2
          simp only [List.getElem_map, Function.comp]
          exact stripMargin_append ind _
        · simp only [List.map_cons, List.map_nil]
          rw [stripMargin_nil_of_ne ind (by rw [hi]; simp)]
      rw [hmapstrip, joinNL_append_nil]

/-- Witness for the amended C9: two leading blank lines and a uniform
two-space indent on the lines "x" and "y" come back as exactly
"x\ny\n". -/
theorem multiline_uniform_dedent_witness :
    mlProcess (List.replicate 2 '\n' ++
        concatNL ([['x'], ['y']].map (([' ', ' '] : Str) ++ ·))) =
      concatNL [['x'], ['y']] :=
  multiline_uniform_dedent [' ', ' '] [['x'], ['y']] 2 (by decide) (by decide)
    (by
      intro l hl
      simp only [List.mem_cons, List.not_mem_nil, or_false] at hl
      rcases hl with h | h <;> subst h
      · exact ⟨'x', [], rfl, by decide, by decide, by decide⟩
      · exact ⟨'y', [], rfl, by decide, by decide, by decide⟩)
